import Mathlib

/-!
Verification of the DCTFilter plugin (src/DCTFilter/DCTFilter.cpp).

The development shallowly embeds the program's data model and operations:

* machine floats (`float`/`double`) are modelled by exact arithmetic —
  `ℚ` where the program only multiplies and compares user-supplied values,
  `ℝ` where the transform (cosines, `sqrt`) is involved;
* the per-coefficient loop, the matrix builders of `dctfilterCreate`, the
  parameter validation, the padding arithmetic and the plane-selection
  logic are translated function by function from the source;
* the FFTW `REDFT10`/`REDFT01` plans executed by `process()` are external
  library calls; they are modelled from the spec's description of the
  transform pair (unnormalised separable 2D DCT-II / DCT-III).
-/

open Finset

/-- Truncation toward zero, as performed by C's `static_cast<int>` on a
float and by the implicit truncation inside `fmodf`. -/
noncomputable def rtrunc (r : ℝ) : ℤ := if 0 ≤ r then ⌊r⌋ else ⌈r⌉

/-- Real-valued model of `fmodf(x, q)`: the remainder `x - q * trunc (x / q)`,
which carries the sign of `x`. -/
noncomputable def realFmod (x q : ℝ) : ℝ := x - q * (rtrunc (x / q) : ℝ)

/-- The per-coefficient filtering step of `process()` (DCTFilter.cpp lines
85-90): `buffer[i] *= factors[i]; if (qps[i] > 0) buffer[i] -= fmodf(buffer[i], qps[i]);`. -/
noncomputable def coeffOp (x a q : ℝ) : ℝ :=
  let y := x * a
  if 0 < q then y - realFmod y q else y

/-- Integer write-back of `process()` (line 100):
`std::min(std::max(static_cast<int>(input[xx] + 0.5f), 0), d->peak)`. -/
noncomputable def writeInt (v : ℝ) (peak : ℤ) : ℤ :=
  min (max (rtrunc (v + 1/2)) 0) peak

/-- Float write-back of `process()` (line 102): the value is stored unchanged. -/
def writeFloat (v : ℝ) : ℝ := v

/-- The attenuation matrix of `dctfilterCreate` (lines 258-268), flattened
row-major exactly like `d->factors`: entry `i` is `factors[i] * norm` when the
supplied count differs from `n`, else the outer product
`factors[i / n] * factors[i % n] * norm`, with `norm = 1 / (n * n * 4)`. -/
def buildFactors (n : ℕ) (fs : List ℚ) : ℕ → ℚ := fun i =>
  let norm : ℚ := 1 / ((n : ℚ) * n * 4)
  if fs.length ≠ n then fs.getD i 0 * norm
  else fs.getD (i / n) 0 * fs.getD (i % n) 0 * norm

/-- The fully expanded `n*n`-entry outer-product form of a length-`n`
factor list (the equivalent "expanded" user input of the spec). -/
def outerList (n : ℕ) (fs : List ℚ) : List ℚ :=
  (List.range (n * n)).map fun i => fs.getD (i / n) 0 * fs.getD (i % n) 0

/-- The quantization-step matrix of `dctfilterCreate` (lines 270-298),
flattened row-major like `d->qps`: all zero when `qps` is omitted; otherwise
the `n×n` expansion (direct when the count differs from `n`, outer product
otherwise), multiplied by `peak = 2^bits - 1` for integer sample formats,
with entry `0` further multiplied by `2` and the remaining entries of row 0
(`0 < i < n`) and of column 0 (`i % n = 0`, `i ≥ n`) by `sqrt 2`. -/
noncomputable def buildQps (n bits : ℕ) (isInt : Bool) (qs : List ℚ) : ℕ → ℝ := fun i =>
  if qs.length = 0 then 0
  else
    let e : ℝ :=
      if qs.length ≠ n then (qs.getD i 0 : ℝ)
      else ((qs.getD (i / n) 0 * qs.getD (i % n) 0 : ℚ) : ℝ)
    let e : ℝ := if isInt then e * ((2 ^ bits - 1 : ℕ) : ℝ) else e
    if i = 0 then e * 2
    else if i < n then e * Real.sqrt 2
    else if i % n = 0 then e * Real.sqrt 2
    else e

/-- Padding amount of `dctfilterCreate` (lines 192-193):
`(width & (2*n-1)) ? 2*n - width % (2*n) : 0`. -/
def padW (w n : ℕ) : ℕ :=
  if w &&& (2 * n - 1) ≠ 0 then 2 * n - w % (2 * n) else 0

/-- The plane-selection loop of `dctfilterCreate` (lines 206-216): each
listed plane index is range-checked, checked against the already-selected
set, and marked. -/
def setPlanes : List ℤ → ℕ → (ℕ → Bool) → Except String (ℕ → Bool)
  | [], _, pr => .ok pr
  | q :: t, np, pr =>
    if q < 0 ∨ (np : ℤ) ≤ q then .error "plane index out of range"
    else if pr q.toNat then .error "plane specified twice"
    else setPlanes t np (Function.update pr q.toNat true)

/-- Plane selection of `dctfilterCreate` (lines 201-216): every plane starts
selected exactly when the `planes` argument is absent or empty
(`m <= 0`), then the listed planes are processed by `setPlanes`. -/
def computeProcess (planes : List ℤ) (np : ℕ) : Except String (ℕ → Bool) :=
  setPlanes planes np fun _ => decide (planes.length ≤ 0)

/-- The parameter surface of `dctfilterCreate`: the plugin arguments
(`n`, `factors`, `planes`, `qps`) together with the relevant clip/format
properties read from the input node. An omitted `planes`/`qps` is the empty
list (`propNumElements <= 0`); an omitted `n` is `none`. -/
structure Params where
  nOpt : Option ℤ
  factors : List ℚ
  planes : List ℤ
  qps : List ℚ
  constantFormat : Bool
  isInt : Bool
  bits : ℕ
  numPlanes : ℕ
  width : ℕ
  height : ℕ

/-- The filter instance state built by a successful `dctfilterCreate`
(the relevant fields of `DCTFilterData` plus the pad amounts). -/
structure Config where
  n : ℕ
  process : ℕ → Bool
  peak : ℕ
  attenuation : ℕ → ℚ
  quantStep : ℕ → ℝ
  padWidth : ℕ
  padHeight : ℕ

/-- The int64-to-int narrowing applied to the `n` argument at line 186
(`int n = vsapi->propGetInt(in, "n", 0, &err)`): two's-complement wrap of the
user-supplied 64-bit value into a 32-bit signed int. -/
def wrap32 (x : ℤ) : ℤ := (x + 2 ^ 31) % 2 ^ 32 - 2 ^ 31

/-- `dctfilterCreate` (DCTFilter.cpp lines 176-314): the validation sequence
and construction of the filter state, in source order — the int64 `n`
argument narrowed to a 32-bit int (line 186), block-size check
(`n < 0 || (n & (n-1)) != 0`), format check, plane selection, factors
length and range checks, then the matrix builders with the `qps` length
check. External resize/crop invocations are modelled as succeeding. The
corner `n = 0` with a nonzero clip dimension is division by zero in the
source (`width % (2*n)` at line 192), i.e. undefined behavior; theorems
about this model exclude that corner by hypothesis. -/
noncomputable def dctfilterCreate (p : Params) : Except String Config :=
  let ni : ℤ := wrap32 (p.nOpt.getD 8)
  let n : ℕ := ni.toNat
  if ni < 0 ∨ n &&& (n - 1) ≠ 0 then .error "n must be power of two and > 1"
  else if ¬p.constantFormat ∨ (p.isInt ∧ 16 < p.bits) ∨ (¬p.isInt ∧ p.bits ≠ 32) then
    .error "only constant format 8-16 bit integer and 32 bit float input supported"
  else
    match computeProcess p.planes p.numPlanes with
    | .error e => .error e
    | .ok pr =>
      if p.factors.length ≠ n ∧ p.factors.length ≠ n * n then
        .error "the number of factors must be equal to either n or n*n"
      else if ∃ f ∈ p.factors, f < 0 ∨ 1 < f then
        .error "factor must be between 0.0 and 1.0 (inclusive)"
      else if p.qps.length ≠ 0 ∧ p.qps.length ≠ n ∧ p.qps.length ≠ n * n then
        .error "the number of qps must be equal to either n or n*n"
      else
        .ok { n := n
              process := pr
              peak := if p.isInt then 2 ^ p.bits - 1 else 0
              attenuation := buildFactors n p.factors
              quantStep := buildQps n p.bits p.isInt p.qps
              padWidth := padW p.width n
              padHeight := padW p.height n }

/-- The condition claimed (in the spec's words) to be exactly the
construction-failure condition: block size not a positive power of two of
at least 2, a factor outside `[0,1]`, a negative `qps` value, a wrong
`factors`/`qps` array length, or a bad plane index. -/
def specFailCond (p : Params) : Prop :=
  let n : ℕ := (p.nOpt.getD 8).toNat
  ¬(2 ≤ (p.nOpt.getD 8) ∧ ∃ k : ℕ, p.nOpt.getD 8 = 2 ^ k)
  ∨ (∃ f ∈ p.factors, f < 0 ∨ 1 < f)
  ∨ (∃ q ∈ p.qps, q < 0)
  ∨ (p.factors.length ≠ n ∧ p.factors.length ≠ n * n)
  ∨ (p.qps ≠ [] ∧ p.qps.length ≠ n ∧ p.qps.length ≠ n * n)
  ∨ (∃ x ∈ p.planes, x < 0 ∨ (p.numPlanes : ℤ) ≤ x)
  ∨ ¬p.planes.Nodup

/-- The failure condition actually implemented by `dctfilterCreate`, stated
of the 32-bit-narrowed block size. -/
def actualFailCond (p : Params) : Prop :=
  let ni : ℤ := wrap32 (p.nOpt.getD 8)
  let n : ℕ := ni.toNat
  (ni < 0 ∨ n &&& (n - 1) ≠ 0)
  ∨ (¬p.constantFormat ∨ (p.isInt ∧ 16 < p.bits) ∨ (¬p.isInt ∧ p.bits ≠ 32))
  ∨ ((∃ x ∈ p.planes, x < 0 ∨ (p.numPlanes : ℤ) ≤ x) ∨ ¬p.planes.Nodup)
  ∨ (p.factors.length ≠ n ∧ p.factors.length ≠ n * n)
  ∨ (∃ f ∈ p.factors, f < 0 ∨ 1 < f)
  ∨ (p.qps.length ≠ 0 ∧ p.qps.length ≠ n ∧ p.qps.length ≠ n * n)

/-- A concrete parameter set: `n = 1`, `factors = [1]`, valid 8-bit integer
format, no planes/qps arguments. -/
def pCex : Params :=
  { nOpt := some 1, factors := [1], planes := [], qps := [],
    constantFormat := true, isInt := true, bits := 8, numPlanes := 3,
    width := 640, height := 480 }

/-- The concrete 2x2 block `[10, 20, 30, 40]` of the spec's round-trip
scenario. -/
def gW : Fin 2 → Fin 2 → ℤ := fun y x =>
  if y = 0 then (if x = 0 then 10 else 20) else (if x = 0 then 30 else 40)

/-- `dctfilterGetFrame` at the plane level (lines 143-156 together with the
guard at line 65): the output frame holds the engine's result for each
selected plane and the source plane itself for every other plane. -/
def dctfilterGetFrame {α : Type} (process : ℕ → Bool)
    (engine : (ℕ → ℕ → α) → (ℕ → ℕ → α)) (src : ℕ → ℕ → ℕ → α) :
    ℕ → ℕ → ℕ → α :=
  fun plane => if process plane then engine (src plane) else src plane

/-- Modelled from the spec: the forward transform executed through the FFTW
plan `fftwf_plan_r2r_2d(n, n, .., FFTW_REDFT10, FFTW_REDFT10, ..)` (line 304)
is the unnormalised separable 2D DCT-II; this is its 1D matrix,
`dctMat[k][j] = 2 * cos (pi * (2*j+1) * k / (2*n))`. -/
noncomputable def dctMat (n : ℕ) : Matrix (Fin n) (Fin n) ℝ :=
  Matrix.of fun k j =>
    2 * Real.cos (Real.pi * (2 * (j : ℕ) + 1) * (k : ℕ) / (2 * n))

/-- Modelled from the spec: the inverse transform executed through the FFTW
plan with `FFTW_REDFT01` (line 305) is the unnormalised separable 2D DCT-III;
this is its 1D matrix, `idctMat[j][k] = w_k * cos (pi * (2*j+1) * k / (2*n))`
with `w_0 = 1` and `w_k = 2` otherwise. -/
noncomputable def idctMat (n : ℕ) : Matrix (Fin n) (Fin n) ℝ :=
  Matrix.of fun j k =>
    (if (k : ℕ) = 0 then 1 else 2) *
      Real.cos (Real.pi * (2 * (j : ℕ) + 1) * (k : ℕ) / (2 * n))

/-- The separable 2D forward transform applied in place to the block buffer
by `fftwf_execute_r2r(d->dct, ..)` (line 83): rows and columns each get the
1D DCT-II. -/
noncomputable def dct2d (n : ℕ) (g : Matrix (Fin n) (Fin n) ℝ) :
    Matrix (Fin n) (Fin n) ℝ :=
  dctMat n * g * (dctMat n).transpose

/-- The separable 2D inverse transform applied by
`fftwf_execute_r2r(d->idct, ..)` (line 92). -/
noncomputable def idct2d (n : ℕ) (h : Matrix (Fin n) (Fin n) ℝ) :
    Matrix (Fin n) (Fin n) ℝ :=
  idctMat n * h * (idctMat n).transpose

/-- One full block of `process<T>` for an integral sample type `T`
(lines 73-104): load the block into the float buffer, forward transform,
per-coefficient attenuation and quantization at flat index `n*i+j`,
inverse transform, and rounded/clamped write-back. -/
noncomputable def processBlockInt (n : ℕ) (peak : ℤ) (att qst : ℕ → ℝ)
    (g : Fin n → Fin n → ℤ) : Fin n → Fin n → ℤ :=
  fun y x =>
    writeInt
      ((idct2d n
          (Matrix.of fun i j =>
            coeffOp (dct2d n (Matrix.of fun a b => ((g a b : ℤ) : ℝ)) i j)
              (att (n * (i : ℕ) + (j : ℕ))) (qst (n * (i : ℕ) + (j : ℕ)))))
        y x)
      peak

theorem coeffOp_pos {q : ℝ} (hq : 0 < q) (x a : ℝ) :
    coeffOp x a q = x * a - realFmod (x * a) q := by
  simp [coeffOp, hq]

theorem coeffOp_nonpos {q : ℝ} (hq : ¬ 0 < q) (x a : ℝ) :
    coeffOp x a q = x * a := by
  simp [coeffOp, hq]

theorem sub_realFmod (y q : ℝ) : y - realFmod y q = q * (rtrunc (y / q) : ℝ) := by
  simp [realFmod]

theorem rtrunc_intCast (t : ℤ) : rtrunc (t : ℝ) = t := by
  unfold rtrunc
  split <;> simp

theorem abs_mul_rtrunc_div_le {q : ℝ} (hq : 0 < q) (y : ℝ) :
    |q * (rtrunc (y / q) : ℝ)| ≤ |y| := by
  rcases le_or_lt 0 y with hy | hy
  · have h0 : 0 ≤ y / q := div_nonneg hy hq.le
    have ht : rtrunc (y / q) = ⌊y / q⌋ := by simp [rtrunc, h0]
    have h1 : (0 : ℝ) ≤ (⌊y / q⌋ : ℝ) := by
      exact_mod_cast Int.floor_nonneg.mpr h0
    have h2 : (⌊y / q⌋ : ℝ) ≤ y / q := Int.floor_le _
    rw [ht, abs_of_nonneg hy, abs_of_nonneg (by positivity)]
    calc q * (⌊y / q⌋ : ℝ) ≤ q * (y / q) := by
          exact mul_le_mul_of_nonneg_left h2 hq.le
      _ = y := by field_simp
  · have h0 : ¬ 0 ≤ y / q := by
      simp only [not_le]
      exact div_neg_of_neg_of_pos hy hq
    have ht : rtrunc (y / q) = ⌈y / q⌉ := by simp [rtrunc, h0]
    have h1 : (⌈y / q⌉ : ℝ) ≤ 0 := by
      have : ⌈y / q⌉ ≤ (0 : ℤ) := Int.ceil_le.mpr (by simpa using le_of_lt (not_le.mp h0))
      exact_mod_cast this
    have h2 : y / q ≤ (⌈y / q⌉ : ℝ) := Int.le_ceil _
    have hqt : q * (⌈y / q⌉ : ℝ) ≤ 0 := mul_nonpos_of_nonneg_of_nonpos hq.le h1
    rw [ht, abs_of_neg hy, abs_of_nonpos hqt]
    have : y ≤ q * (⌈y / q⌉ : ℝ) := by
      calc y = q * (y / q) := by field_simp
        _ ≤ q * (⌈y / q⌉ : ℝ) := mul_le_mul_of_nonneg_left h2 hq.le
    linarith

theorem conj_ne_one {z : ℂ} (h1 : z ≠ 1) : (starRingEnd ℂ) z ≠ 1 := by
  intro h
  apply h1
  have h2 := congrArg (starRingEnd ℂ) h
  simpa using h2

theorem re_neg_two_div {z : ℂ} (hz : Complex.abs z = 1) (h1 : z ≠ 1) :
    ((-2) / (z - 1)).re = 1 := by
  have hzc : z * (starRingEnd ℂ) z = 1 := by
    rw [Complex.mul_conj, Complex.normSq_eq_abs, hz]
    norm_num
  have hd1 : z - 1 ≠ 0 := sub_ne_zero.mpr h1
  have hd2 : (starRingEnd ℂ) z - 1 ≠ 0 := sub_ne_zero.mpr (conj_ne_one h1)
  have hconj : (starRingEnd ℂ) ((-2) / (z - 1)) = (-2) / ((starRingEnd ℂ) z - 1) := by
    rw [map_div₀, map_sub, map_neg, map_one, map_ofNat]
  have key : ((-2) / (z - 1)) + (starRingEnd ℂ) ((-2) / (z - 1)) = 2 := by
    rw [hconj]
    field_simp
    ring_nf
    linear_combination (-2 : ℂ) * hzc
  rw [Complex.add_conj] at key
  have : (2 : ℝ) * ((-2) / (z - 1)).re = 2 := by exact_mod_cast key
  linarith

theorem expI_ne_one {γ : ℝ} (h1 : Real.cos γ ≠ 1) :
    Complex.exp ((γ : ℂ) * Complex.I) ≠ 1 := by
  intro h
  apply h1
  have h2 := congrArg Complex.re h
  rwa [Complex.exp_ofReal_mul_I_re, Complex.one_re] at h2

theorem sum_cos_geom (n : ℕ) (γ : ℝ) (h1 : Real.cos γ ≠ 1) :
    ∑ k ∈ range n, Real.cos (k * γ) =
      ((Complex.exp ((γ : ℂ) * Complex.I) ^ n - 1) /
        (Complex.exp ((γ : ℂ) * Complex.I) - 1)).re := by
  rw [← geom_sum_eq (expI_ne_one h1) n, Complex.re_sum]
  refine Finset.sum_congr rfl fun k _ => ?_
  rw [← Complex.exp_nat_mul]
  have h2 : ((k : ℂ) * ((γ : ℂ) * Complex.I)) = ((k * γ : ℝ) : ℂ) * Complex.I := by
    push_cast
    ring
  rw [h2, Complex.exp_ofReal_mul_I_re]

theorem sum_cos_eq_zero {n : ℕ} {γ : ℝ} (h1 : Real.cos γ ≠ 1)
    (h2 : Complex.exp ((γ : ℂ) * Complex.I) ^ n = 1) :
    ∑ k ∈ range n, Real.cos (k * γ) = 0 := by
  rw [sum_cos_geom n γ h1, h2]
  simp

theorem sum_cos_eq_one {n : ℕ} {γ : ℝ} (h1 : Real.cos γ ≠ 1)
    (h2 : Complex.exp ((γ : ℂ) * Complex.I) ^ n = -1) :
    ∑ k ∈ range n, Real.cos (k * γ) = 1 := by
  rw [sum_cos_geom n γ h1, h2]
  have h3 : ((-1 : ℂ) - 1) = -2 := by norm_num
  rw [h3]
  exact re_neg_two_div (Complex.abs_exp_ofReal_mul_I γ) (expI_ne_one h1)

theorem exp_pow_eq_neg_one_pow {γ : ℝ} {n d : ℕ} (h : (n : ℝ) * γ = Real.pi * d) :
    Complex.exp ((γ : ℂ) * Complex.I) ^ n = (-1) ^ d := by
  rw [← Complex.exp_nat_mul]
  have hc : ((n : ℂ)) * (γ : ℂ) = (Real.pi : ℂ) * (d : ℂ) := by exact_mod_cast h
  have e1 : ((n : ℂ) * ((γ : ℂ) * Complex.I)) = (d : ℂ) * ((Real.pi : ℂ) * Complex.I) := by
    linear_combination Complex.I * hc
  rw [e1, Complex.exp_nat_mul, Complex.exp_pi_mul_I]

theorem exp_pow_eq_neg_one_zpow {γ : ℝ} {n : ℕ} {d : ℤ}
    (h : (n : ℝ) * γ = Real.pi * d) :
    Complex.exp ((γ : ℂ) * Complex.I) ^ n = (-1) ^ d := by
  rw [← Complex.exp_nat_mul]
  have hc : ((n : ℂ)) * (γ : ℂ) = (Real.pi : ℂ) * (d : ℂ) := by exact_mod_cast h
  have e1 : ((n : ℂ) * ((γ : ℂ) * Complex.I))
      = (d : ℂ) * ((Real.pi : ℂ) * Complex.I) := by
    linear_combination Complex.I * hc
  rw [e1, Complex.exp_int_mul, Complex.exp_pi_mul_I]

theorem sum_w_cos (n : ℕ) (hn : 0 < n) (α β : ℝ) :
    ∑ k ∈ range n,
        ((if k = 0 then (1 : ℝ) else 2) * (Real.cos (k * α) * Real.cos (k * β)))
      = (∑ k ∈ range n, Real.cos (k * (α + β)))
        + (∑ k ∈ range n, Real.cos (k * (α - β))) - 1 := by
  have key : ∀ k ∈ range n,
      (if k = 0 then (1 : ℝ) else 2) * (Real.cos (k * α) * Real.cos (k * β))
        = (Real.cos (k * (α + β)) + Real.cos (k * (α - β)))
          - (if k = 0 then Real.cos (k * α) * Real.cos (k * β) else 0) := by
    intro k _
    have hcc : Real.cos (k * (α + β)) + Real.cos (k * (α - β))
        = 2 * (Real.cos (k * α) * Real.cos (k * β)) := by
      rw [mul_add, mul_sub, Real.cos_add, Real.cos_sub]
      ring
    rw [hcc]
    by_cases hk : k = 0
    · simp [hk]
      norm_num
    · simp [hk]
  rw [Finset.sum_congr rfl key, Finset.sum_sub_distrib, Finset.sum_add_distrib]
  have hz : ∑ k ∈ range n,
      (if k = 0 then Real.cos (k * α) * Real.cos (k * β) else 0) = 1 := by
    rw [Finset.sum_ite_eq' (range n) 0 fun k => Real.cos (k * α) * Real.cos (k * β)]
    simp [hn]
  rw [hz]

theorem kernel_sum (n j m : ℕ) (hn : 0 < n) (hj : j < n) (hm : m < n) :
    ∑ k ∈ range n,
        ((if k = 0 then (1 : ℝ) else 2) *
          (Real.cos (k * (Real.pi * (2 * (j : ℝ) + 1) / (2 * n))) *
           Real.cos (k * (Real.pi * (2 * (m : ℝ) + 1) / (2 * n)))))
      = if j = m then (n : ℝ) else 0 := by
  have hn' : (0 : ℝ) < n := by exact_mod_cast hn
  have hπ := Real.pi_pos
  rw [sum_w_cos n hn]
  have hsum : Real.pi * (2 * (j : ℝ) + 1) / (2 * n) + Real.pi * (2 * (m : ℝ) + 1) / (2 * n)
      = Real.pi * ((j : ℝ) + m + 1) / n := by
    field_simp
    ring
  have hdiff : Real.pi * (2 * (j : ℝ) + 1) / (2 * n) - Real.pi * (2 * (m : ℝ) + 1) / (2 * n)
      = Real.pi * ((j : ℝ) - m) / n := by
    field_simp
    ring
  rw [hsum, hdiff]
  have hargp : (n : ℝ) * (Real.pi * ((j : ℝ) + m + 1) / n)
      = Real.pi * (((j : ℤ) + m + 1 : ℤ) : ℝ) := by
    push_cast
    field_simp
  have hargm : (n : ℝ) * (Real.pi * ((j : ℝ) - m) / n)
      = Real.pi * (((j : ℤ) - m : ℤ) : ℝ) := by
    push_cast
    field_simp
  have hubp : (j : ℝ) + m + 1 < 2 * n := by
    have h1 : j + m + 1 < 2 * n := by omega
    exact_mod_cast h1
  have hγp0 : 0 < Real.pi * ((j : ℝ) + m + 1) / n := by positivity
  have hγp2 : Real.pi * ((j : ℝ) + m + 1) / n < 2 * Real.pi := by
    rw [div_lt_iff hn']
    nlinarith
  have hcosp : Real.cos (Real.pi * ((j : ℝ) + m + 1) / n) ≠ 1 := by
    intro hc
    have h2 := (Real.cos_eq_one_iff_of_lt_of_lt (by linarith) hγp2).mp hc
    linarith
  by_cases hjm : j = m
  · subst hjm
    have h0 : Real.pi * ((j : ℝ) - j) / n = 0 := by
      simp
    rw [h0]
    have hSm : ∑ k ∈ range n, Real.cos ((k : ℝ) * 0) = n := by
      simp
    rw [hSm]
    have hodd : Odd ((j : ℤ) + j + 1) := ⟨j, by ring⟩
    have hpow := exp_pow_eq_neg_one_zpow hargp
    rw [hodd.neg_one_zpow] at hpow
    rw [sum_cos_eq_one hcosp hpow]
    simp
  · have hjm' : (j : ℝ) ≠ m := by
      exact_mod_cast hjm
    have hlb : -(n : ℝ) < (j : ℝ) - m := by
      have h1 : (m : ℝ) < n := by exact_mod_cast hm
      have h2 : (0 : ℝ) ≤ j := Nat.cast_nonneg j
      linarith
    have hub : (j : ℝ) - m < n := by
      have h1 : (j : ℝ) < n := by exact_mod_cast hj
      have h2 : (0 : ℝ) ≤ m := Nat.cast_nonneg m
      linarith
    have hγm2 : Real.pi * ((j : ℝ) - m) / n < 2 * Real.pi := by
      rw [div_lt_iff hn']
      nlinarith
    have hγm1 : -(2 * Real.pi) < Real.pi * ((j : ℝ) - m) / n := by
      rw [neg_lt, ← neg_div, ← mul_neg, div_lt_iff hn']
      nlinarith
    have hγm0 : Real.pi * ((j : ℝ) - m) / n ≠ 0 := by
      have hd : (j : ℝ) - m ≠ 0 := sub_ne_zero.mpr hjm'
      positivity
    have hcosm : Real.cos (Real.pi * ((j : ℝ) - m) / n) ≠ 1 := by
      intro hc
      exact hγm0 ((Real.cos_eq_one_iff_of_lt_of_lt hγm1 hγm2).mp hc)
    have hpowp := exp_pow_eq_neg_one_zpow hargp
    have hpowm := exp_pow_eq_neg_one_zpow hargm
    rcases Int.even_or_odd ((j : ℤ) - m) with he | ho
    · have hoddp : Odd ((j : ℤ) + m + 1) := by
        rw [Int.odd_iff]
        rw [Int.even_iff] at he
        omega
      rw [hoddp.neg_one_zpow] at hpowp
      rw [he.neg_one_zpow] at hpowm
      rw [sum_cos_eq_one hcosp hpowp, sum_cos_eq_zero hcosm hpowm]
      simp [hjm]
    · have hevenp : Even ((j : ℤ) + m + 1) := by
        rw [Int.even_iff]
        rw [Int.odd_iff] at ho
        omega
      rw [hevenp.neg_one_zpow] at hpowp
      rw [ho.neg_one_zpow] at hpowm
      rw [sum_cos_eq_zero hcosp hpowp, sum_cos_eq_one hcosm hpowm]
      simp [hjm]

theorem idctMat_mul_dctMat (n : ℕ) (hn : 0 < n) :
    idctMat n * dctMat n = ((2 * n : ℕ) : ℝ) • (1 : Matrix (Fin n) (Fin n) ℝ) := by
  ext j m
  rw [Matrix.mul_apply]
  have hconv : ∀ k : Fin n,
      idctMat n j k * dctMat n k m
        = 2 * ((if (k : ℕ) = 0 then (1 : ℝ) else 2) *
            (Real.cos ((k : ℕ) * (Real.pi * (2 * (j : ℝ) + 1) / (2 * n))) *
             Real.cos ((k : ℕ) * (Real.pi * (2 * (m : ℝ) + 1) / (2 * n))))) := by
    intro k
    simp only [idctMat, dctMat, Matrix.of_apply]
    have e1 : Real.pi * (2 * ((j : ℕ) : ℝ) + 1) * ((k : ℕ) : ℝ) / (2 * n)
        = (k : ℕ) * (Real.pi * (2 * (j : ℝ) + 1) / (2 * n)) := by
      ring
    have e2 : Real.pi * (2 * ((m : ℕ) : ℝ) + 1) * ((k : ℕ) : ℝ) / (2 * n)
        = (k : ℕ) * (Real.pi * (2 * (m : ℝ) + 1) / (2 * n)) := by
      ring
    rw [e1, e2]
    ring
  rw [Finset.sum_congr rfl fun k _ => hconv k, ← Finset.mul_sum]
  rw [Fin.sum_univ_eq_sum_range fun k =>
    ((if k = 0 then (1 : ℝ) else 2) *
      (Real.cos (k * (Real.pi * (2 * (j : ℝ) + 1) / (2 * n))) *
       Real.cos (k * (Real.pi * (2 * (m : ℝ) + 1) / (2 * n)))))]
  rw [kernel_sum n j m hn j.isLt m.isLt]
  rw [Matrix.smul_apply, Matrix.one_apply]
  by_cases h : j = m
  · have h2 : (j : ℕ) = (m : ℕ) := by rw [h]
    simp only [h, if_pos, h2, if_pos rfl]
    simp
    try push_cast
    try ring
  · have h2 : (j : ℕ) ≠ (m : ℕ) := fun hc => h (Fin.ext hc)
    simp [h, h2]

theorem idct2d_dct2d (n : ℕ) (hn : 0 < n) (g : Matrix (Fin n) (Fin n) ℝ) :
    idct2d n (dct2d n g) = ((4 * n * n : ℕ) : ℝ) • g := by
  unfold idct2d dct2d
  have e : idctMat n * (dctMat n * g * (dctMat n).transpose) * (idctMat n).transpose
      = (idctMat n * dctMat n) * g * (idctMat n * dctMat n).transpose := by
    rw [Matrix.transpose_mul]
    simp only [Matrix.mul_assoc]
  rw [e, idctMat_mul_dctMat n hn]
  rw [Matrix.transpose_smul, Matrix.transpose_one]
  rw [Matrix.smul_mul, Matrix.one_mul, Matrix.mul_smul, Matrix.mul_one, smul_smul]
  congr 1
  push_cast
  ring

theorem idct2d_smul (n : ℕ) (c : ℝ) (h : Matrix (Fin n) (Fin n) ℝ) :
    idct2d n (c • h) = c • idct2d n h := by
  unfold idct2d
  rw [Matrix.mul_smul, Matrix.smul_mul]

theorem buildQps_empty (n bits : ℕ) (isInt : Bool) (i : ℕ) :
    buildQps n bits isInt [] i = 0 := by
  simp [buildQps]

theorem buildFactors_ones (n : ℕ) (hn : 2 ≤ n) (i : ℕ) (hi : i < n * n) :
    buildFactors n (List.replicate (n * n) (1 : ℚ)) i = 1 / ((n : ℚ) * n * 4) := by
  have hne : n * n ≠ n := by nlinarith
  simp [buildFactors, List.length_replicate, hne, List.getD_eq_getElem?_getD,
    List.getElem?_replicate, hi]

theorem flat_lt (n : ℕ) (i j : Fin n) : n * (i : ℕ) + (j : ℕ) < n * n := by
  have h1 : n * (i : ℕ) + (j : ℕ) < n * ((i : ℕ) + 1) := by
    have hj := j.isLt
    calc n * (i : ℕ) + (j : ℕ) < n * (i : ℕ) + n := by omega
      _ = n * ((i : ℕ) + 1) := by ring
  have h2 : n * ((i : ℕ) + 1) ≤ n * n := Nat.mul_le_mul_left n i.isLt
  omega

/-- C1. Round-trip identity: for every power-of-two block size `n ≥ 2`, with
every expanded attenuation factor equal to `1` and `qps` omitted (all
quantization steps zero), processing a block of integer samples in `[0, peak]`
— copy, forward DCT, scaling by `factors[i] * 1/(4*n^2)`, inverse DCT,
rounded/clamped write-back — reproduces the original samples within one
integer level (in the exact-arithmetic model the reproduction is exact). -/
theorem c1_roundtrip (n k : ℕ) (hnk : n = 2 ^ k) (hn2 : 2 ≤ n) (peak : ℤ)
    (g : Fin n → Fin n → ℤ) (hg : ∀ y x, 0 ≤ g y x ∧ g y x ≤ peak) (y x : Fin n) :
    (processBlockInt n peak
        (fun i => ((buildFactors n (List.replicate (n * n) 1) i : ℚ) : ℝ))
        (buildQps n 8 true []) g y x - g y x).natAbs ≤ 1 := by
  have hn0 : 0 < n := by omega
  have hnR : ((n : ℝ)) ≠ 0 := by
    exact_mod_cast Nat.pos_iff_ne_zero.mp hn0
  suffices h : processBlockInt n peak
      (fun i => ((buildFactors n (List.replicate (n * n) 1) i : ℚ) : ℝ))
      (buildQps n 8 true []) g y x = g y x by
    rw [h]
    simp
  unfold processBlockInt
  have hM : (Matrix.of fun i j : Fin n =>
      coeffOp (dct2d n (Matrix.of fun a b => ((g a b : ℤ) : ℝ)) i j)
        ((buildFactors n (List.replicate (n * n) 1) (n * (i : ℕ) + (j : ℕ)) : ℚ) : ℝ)
        (buildQps n 8 true [] (n * (i : ℕ) + (j : ℕ))))
      = (1 / ((n : ℝ) * n * 4)) •
          dct2d n (Matrix.of fun a b => ((g a b : ℤ) : ℝ)) := by
    ext i j
    rw [Matrix.smul_apply, Matrix.of_apply, smul_eq_mul]
    rw [buildQps_empty, coeffOp_nonpos (by norm_num)]
    rw [buildFactors_ones n hn2 _ (flat_lt n i j)]
    push_cast
    ring
  rw [hM, idct2d_smul, idct2d_dct2d n hn0, smul_smul]
  have hc : (1 / ((n : ℝ) * n * 4)) * ((4 * n * n : ℕ) : ℝ) = 1 := by
    push_cast
    field_simp
    ring
  rw [hc, one_smul, Matrix.of_apply]
  have h0 : 0 ≤ g y x := (hg y x).1
  have h1 : g y x ≤ peak := (hg y x).2
  have hfl : rtrunc (((g y x : ℤ) : ℝ) + 1 / 2) = g y x := by
    unfold rtrunc
    have hpos : (0 : ℝ) ≤ ((g y x : ℤ) : ℝ) + 1 / 2 := by
      have : (0 : ℝ) ≤ ((g y x : ℤ) : ℝ) := by exact_mod_cast h0
      linarith
    rw [if_pos hpos, add_comm, Int.floor_add_int]
    have hhalf : ⌊(1 / 2 : ℝ)⌋ = 0 := by
      rw [Int.floor_eq_zero_iff]
      constructor <;> norm_num
    rw [hhalf]
    ring
  unfold writeInt
  rw [hfl, max_eq_left h0, min_eq_left h1]

theorem c1_roundtrip_witness :
    ((2 : ℕ) = 2 ^ 1 ∧ (2 : ℕ) ≤ 2 ∧ ∀ y x : Fin 2, 0 ≤ gW y x ∧ gW y x ≤ 255) ∧
    ∀ y x : Fin 2,
      (processBlockInt 2 255
          (fun i => ((buildFactors 2 (List.replicate (2 * 2) 1) i : ℚ) : ℝ))
          (buildQps 2 8 true []) gW y x - gW y x).natAbs ≤ 1 :=
  ⟨⟨by norm_num, by norm_num, by decide⟩,
   fun y x => c1_roundtrip 2 1 (by norm_num) (by norm_num) 255 gW (by decide) y x⟩

theorem mul_add_div_eq (n : ℕ) (hn : 0 < n) (y x : ℕ) (hx : x < n) :
    (n * y + x) / n = y := by
  rw [Nat.mul_add_div hn, Nat.div_eq_of_lt hx, add_zero]

theorem mul_add_mod_eq (n y x : ℕ) (hx : x < n) :
    (n * y + x) % n = x := by
  rw [Nat.mul_add_mod, Nat.mod_eq_of_lt hx]

/-- C3. Attenuation construction: with a separable (length-`n`) factor list,
each attenuation entry at flat index `n*y+x` is
`factors[y] * factors[x] * (1/(4*n^2))`, and the matrix coincides entry for
entry with the one built from the fully expanded `n^2` outer-product input,
so the filter output itself is identical for the two inputs. -/
theorem c3_attenuation (n : ℕ) (hn : 2 ≤ n) (fs : List ℚ) (hlen : fs.length = n) :
    (∀ y x : Fin n,
      buildFactors n fs (n * (y : ℕ) + (x : ℕ))
        = fs.getD (y : ℕ) 0 * fs.getD (x : ℕ) 0 * (1 / ((n : ℚ) * n * 4))) ∧
    (∀ i : ℕ, buildFactors n fs i = buildFactors n (outerList n fs) i) ∧
    (∀ (peak : ℤ) (qst : ℕ → ℝ) (g : Fin n → Fin n → ℤ),
      processBlockInt n peak (fun i => ((buildFactors n fs i : ℚ) : ℝ)) qst g
        = processBlockInt n peak
            (fun i => ((buildFactors n (outerList n fs) i : ℚ) : ℝ)) qst g) := by
  have hn0 : 0 < n := by omega
  have hsep : ¬ fs.length ≠ n := by simp [hlen]
  have houtlen : (outerList n fs).length = n * n := by
    simp [outerList]
  have hne : n * n ≠ n := by nlinarith
  have hout : ∀ i : ℕ, i < n * n →
      (outerList n fs).getD i 0 = fs.getD (i / n) 0 * fs.getD (i % n) 0 := by
    intro i hi
    simp [outerList, List.getD_eq_getElem?_getD, List.getElem?_range, hi]
  have hpt : ∀ i : ℕ, buildFactors n fs i = buildFactors n (outerList n fs) i := by
    intro i
    unfold buildFactors
    rw [if_neg hsep, if_pos (by rw [houtlen]; exact hne)]
    by_cases hi : i < n * n
    · rw [hout i hi]
    · have hbig : n ≤ i / n := by
        rw [Nat.le_div_iff_mul_le hn0]
        omega
      have h1 : fs.getD (i / n) 0 = 0 := by
        have : fs.length ≤ i / n := by omega
        simp [List.getD_eq_getElem?_getD, List.getElem?_eq_none this]
      have h2 : (outerList n fs).getD i 0 = 0 := by
        have : (outerList n fs).length ≤ i := by omega
        simp [List.getD_eq_getElem?_getD, List.getElem?_eq_none this]
      rw [h1, h2]
      ring
  refine ⟨?_, hpt, ?_⟩
  · intro y x
    unfold buildFactors
    rw [if_neg hsep, mul_add_div_eq n hn0 _ _ x.isLt, mul_add_mod_eq n _ _ x.isLt]
  · intro peak qst g
    have hfun : (fun i => ((buildFactors n fs i : ℚ) : ℝ))
        = fun i => ((buildFactors n (outerList n fs) i : ℚ) : ℝ) := by
      funext i
      rw [hpt i]
    rw [hfun]

theorem c3_attenuation_witness :
    ((2 : ℕ) ≤ 2 ∧ ([1/2, 1/4] : List ℚ).length = 2) ∧
    (∀ y x : Fin 2,
      buildFactors 2 [1/2, 1/4] (2 * (y : ℕ) + (x : ℕ))
        = ([1/2, 1/4] : List ℚ).getD (y : ℕ) 0 * ([1/2, 1/4] : List ℚ).getD (x : ℕ) 0
            * (1 / ((2 : ℚ) * 2 * 4))) ∧
    (∀ i : ℕ, buildFactors 2 [1/2, 1/4] i = buildFactors 2 (outerList 2 [1/2, 1/4]) i) ∧
    (∀ (peak : ℤ) (qst : ℕ → ℝ) (g : Fin 2 → Fin 2 → ℤ),
      processBlockInt 2 peak (fun i => ((buildFactors 2 [1/2, 1/4] i : ℚ) : ℝ)) qst g
        = processBlockInt 2 peak
            (fun i => ((buildFactors 2 (outerList 2 [1/2, 1/4]) i : ℚ) : ℝ)) qst g) :=
  ⟨⟨le_refl 2, by norm_num⟩, c3_attenuation 2 (le_refl 2) [1/2, 1/4] (by norm_num)⟩

/-- C4. Quantization-step construction: the entry at block position `(y, x)`
(flat index `n*y+x`) is `0` when `qps` is omitted; otherwise it is the `n×n`
expansion of `qps` (direct for length `n^2`, outer product for length `n`),
multiplied by `peak = 2^bits - 1` exactly for integer sample formats, with
entry `(0,0)` further multiplied by `2` and every other entry of row 0 or of
column 0 multiplied by `sqrt 2`. -/
theorem c4_quantstep (n bits : ℕ) (isInt : Bool) (qs : List ℚ) (y x : Fin n) :
    buildQps n bits isInt qs (n * (y : ℕ) + (x : ℕ))
      = if qs = [] then 0
        else
          (if qs.length ≠ n then (qs.getD (n * (y : ℕ) + (x : ℕ)) 0 : ℝ)
           else ((qs.getD (y : ℕ) 0 : ℚ) : ℝ) * ((qs.getD (x : ℕ) 0 : ℚ) : ℝ))
          * (if isInt then ((2 ^ bits - 1 : ℕ) : ℝ) else 1)
          * (if (y : ℕ) = 0 ∧ (x : ℕ) = 0 then 2
             else if (y : ℕ) = 0 ∨ (x : ℕ) = 0 then Real.sqrt 2 else 1) := by
  have hn0 : 0 < n := y.pos
  have hdiv : (n * (y : ℕ) + (x : ℕ)) / n = (y : ℕ) := mul_add_div_eq n hn0 _ _ x.isLt
  have hmod : (n * (y : ℕ) + (x : ℕ)) % n = (x : ℕ) := mul_add_mod_eq n _ _ x.isLt
  unfold buildQps
  by_cases hq0 : qs.length = 0
  · have hnil : qs = [] := List.length_eq_zero.mp hq0
    simp [hq0, hnil]
  · have hnil : ¬ qs = [] := fun h => hq0 (by simp [h])
    rw [if_neg hq0, if_neg hnil, hdiv, hmod]
    have hEcast : ((qs.getD (y : ℕ) 0 * qs.getD (x : ℕ) 0 : ℚ) : ℝ)
        = ((qs.getD (y : ℕ) 0 : ℚ) : ℝ) * ((qs.getD (x : ℕ) 0 : ℚ) : ℝ) := by
      push_cast
      ring
    have hnz : ¬ n = 0 := by omega
    rcases Nat.eq_zero_or_pos (y : ℕ) with hy | hy
    · rcases Nat.eq_zero_or_pos (x : ℕ) with hx | hx
      · cases isInt <;> simp [hy, hx, hnz, hEcast] <;> split_ifs <;> ring
      · have hx0 : ¬ (x : ℕ) = 0 := by omega
        have hilt : n * (y : ℕ) + (x : ℕ) < n := by
          rw [hy]
          simpa using x.isLt
        have hi0 : ¬ n * (y : ℕ) + (x : ℕ) = 0 := by
          rw [hy]
          omega
        cases isInt <;> simp [hy, hx0, hi0, hilt, hnz, hEcast] <;> split_ifs <;> ring
    · have hy0 : ¬ (y : ℕ) = 0 := by omega
      have hge : n ≤ n * (y : ℕ) := Nat.le_mul_of_pos_right n hy
      have hi0 : ¬ n * (y : ℕ) + (x : ℕ) = 0 := by omega
      have hnlt : ¬ n * (y : ℕ) + (x : ℕ) < n := by omega
      rcases Nat.eq_zero_or_pos (x : ℕ) with hx | hx
      · cases isInt <;> simp [hy0, hx, hi0, hnlt, hnz, hEcast] <;> split_ifs <;> ring
      · have hx0 : ¬ (x : ℕ) = 0 := by omega
        cases isInt <;> simp [hy0, hx0, hi0, hnlt, hnz, hEcast] <;> split_ifs <;> ring

/-- C5. Per-coefficient filtering: the coefficient is first multiplied by its
attenuation factor; exactly when the quantization step is positive, the
signed remainder `fmod` of the scaled value by the step is subtracted
(equivalently, the value is replaced by `q * trunc(value/q)`, which never
increases the magnitude — it pulls negative coefficients toward zero too);
when the step is not positive (in particular zero) the coefficient is left
exactly `x * a`, untouched by quantization. -/
theorem c5_coefficient_step (x a q : ℝ) :
    (0 < q →
      coeffOp x a q = x * a - realFmod (x * a) q ∧
      coeffOp x a q = q * (rtrunc ((x * a) / q) : ℝ) ∧
      |coeffOp x a q| ≤ |x * a|) ∧
    (¬ 0 < q → coeffOp x a q = x * a) := by
  constructor
  · intro hq
    refine ⟨coeffOp_pos hq x a, ?_, ?_⟩
    · rw [coeffOp_pos hq x a, sub_realFmod]
    · rw [coeffOp_pos hq x a, sub_realFmod]
      exact abs_mul_rtrunc_div_le hq (x * a)
  · intro hq
    exact coeffOp_nonpos hq x a

theorem c5_coefficient_step_witness :
    ((0 : ℝ) < 2 ∧
      (coeffOp 3 1 2 = 3 * 1 - realFmod (3 * 1) 2 ∧
       coeffOp 3 1 2 = 2 * (rtrunc ((3 * 1) / 2) : ℝ) ∧
       |coeffOp 3 1 2| ≤ |(3 : ℝ) * 1|)) ∧
    (¬ (0 : ℝ) < 0 ∧ coeffOp 3 1 0 = 3 * 1) :=
  ⟨⟨by norm_num, (c5_coefficient_step 3 1 2).1 (by norm_num)⟩,
   ⟨by norm_num, (c5_coefficient_step 3 1 0).2 (by norm_num)⟩⟩

/-- C6. Quantization idempotence: applying the per-coefficient step (with
attenuation 1, i.e. the pure quantization map `x - (x mod q)`) twice with the
same positive step gives the same result as applying it once, in the
exact-arithmetic model of `fmodf`. -/
theorem c6_quant_idempotent (x q : ℝ) (hq : 0 < q) :
    coeffOp (coeffOp x 1 q) 1 q = coeffOp x 1 q := by
  have hqne : q ≠ 0 := ne_of_gt hq
  have h1 : coeffOp x 1 q = q * (rtrunc ((x * 1) / q) : ℝ) := by
    rw [coeffOp_pos hq, sub_realFmod]
  rw [h1, coeffOp_pos hq, sub_realFmod]
  have h2 : (q * (rtrunc ((x * 1) / q) : ℝ) * 1) / q = (rtrunc ((x * 1) / q) : ℝ) := by
    field_simp
  rw [h2, rtrunc_intCast]

theorem c6_quant_idempotent_witness :
    (0 : ℝ) < 1 ∧ coeffOp (coeffOp (5 / 2) 1 1) 1 1 = coeffOp (5 / 2) 1 1 :=
  ⟨by norm_num, c6_quant_idempotent (5 / 2) 1 (by norm_num)⟩

/-- C7. Write-back: for integer sample formats the stored value is
`clamp(trunc(v + 0.5), 0, peak)`, hence always within `[0, peak]`; for 32-bit
float formats the inverse-transform value is stored unchanged, with no
clamping for any value. -/
theorem c7_writeback (v : ℝ) (peak : ℤ) (hp : 0 ≤ peak) :
    (0 ≤ writeInt v peak ∧ writeInt v peak ≤ peak) ∧ writeFloat v = v := by
  refine ⟨⟨?_, ?_⟩, rfl⟩
  · exact le_min (le_max_right _ _) hp
  · exact min_le_right _ _

theorem c7_writeback_witness :
    (0 : ℤ) ≤ 255 ∧
      ((0 ≤ writeInt 1000 255 ∧ writeInt 1000 255 ≤ 255) ∧ writeFloat 1000 = 1000) :=
  ⟨by norm_num, c7_writeback 1000 255 (by norm_num)⟩

/-- C8. Dimension alignment: for every power-of-two block size `n = 2^k`, the
pad amount computed at construction makes the padded dimension the next
multiple of `2*n` (it is divisible by `2*n`, the pad is less than `2*n`, and
the pad is zero exactly when the dimension is already a multiple of `2*n`),
and cropping the padded amount after filtering restores the original
dimension. -/
theorem c8_padding (k w : ℕ) :
    (2 * 2 ^ k) ∣ (w + padW w (2 ^ k)) ∧
    (padW w (2 ^ k) = 0 ↔ (2 * 2 ^ k) ∣ w) ∧
    padW w (2 ^ k) < 2 * 2 ^ k ∧
    (w + padW w (2 ^ k)) - padW w (2 ^ k) = w := by
  have h2 : 2 * 2 ^ k = 2 ^ (k + 1) := by ring
  have hpos : 0 < 2 ^ (k + 1) := Nat.pos_pow_of_pos (k + 1) (by norm_num)
  have hmask : w &&& (2 * 2 ^ k - 1) = w % 2 ^ (k + 1) := by
    rw [h2]
    exact Nat.and_pow_two_sub_one_eq_mod w (k + 1)
  have hdm : 2 ^ (k + 1) * (w / 2 ^ (k + 1)) + w % 2 ^ (k + 1) = w :=
    Nat.div_add_mod w (2 ^ (k + 1))
  have hlt : w % 2 ^ (k + 1) < 2 ^ (k + 1) := Nat.mod_lt _ hpos
  unfold padW
  rw [hmask, h2]
  by_cases h : w % 2 ^ (k + 1) = 0
  · rw [if_neg (by simpa using h)]
    refine ⟨by simpa using Nat.dvd_of_mod_eq_zero h, ?_, hpos, by omega⟩
    simp [Nat.dvd_iff_mod_eq_zero, h]
  · rw [if_pos (by simpa using h)]
    have hmul : 2 ^ (k + 1) * (w / 2 ^ (k + 1) + 1)
        = 2 ^ (k + 1) * (w / 2 ^ (k + 1)) + 2 ^ (k + 1) := by ring
    refine ⟨⟨w / 2 ^ (k + 1) + 1, by omega⟩, ?_, by omega, by omega⟩
    constructor
    · intro hpad
      omega
    · intro hdvd
      have := Nat.mod_eq_zero_of_dvd hdvd
      omega

/-- C9. Plane pass-through: for every plane not selected for processing, the
output frame's plane is exactly the source plane (the frame is constructed
with the source plane reference and the engine is never applied to it). -/
theorem c9_plane_passthrough {α : Type} (process : ℕ → Bool)
    (engine : (ℕ → ℕ → α) → (ℕ → ℕ → α)) (src : ℕ → ℕ → ℕ → α) (p : ℕ)
    (h : process p = false) :
    dctfilterGetFrame process engine src p = src p := by
  simp [dctfilterGetFrame, h]

theorem c9_plane_passthrough_witness :
    (fun i : ℕ => decide (i = 0)) 1 = false ∧
    dctfilterGetFrame (fun i : ℕ => decide (i = 0)) (fun pl => pl)
        (fun _ _ _ => (7 : ℤ)) 1
      = (fun _ _ _ => (7 : ℤ)) 1 :=
  ⟨by decide,
   c9_plane_passthrough (fun i : ℕ => decide (i = 0)) (fun pl => pl)
     (fun _ _ _ => (7 : ℤ)) 1 (by decide)⟩

theorem setPlanes_ok_mem (l : List ℤ) : ∀ (np : ℕ) (pr pr' : ℕ → Bool),
    setPlanes l np pr = .ok pr' → ∀ i : ℕ,
      (pr' i = true ↔ (pr i = true ∨ ∃ x ∈ l, 0 ≤ x ∧ x.toNat = i)) := by
  induction l with
  | nil =>
    intro np pr pr' h i
    simp only [setPlanes, Except.ok.injEq] at h
    subst h
    simp
  | cons q t ih =>
    intro np pr pr' h i
    by_cases h1 : q < 0 ∨ (np : ℤ) ≤ q
    · rw [setPlanes, if_pos h1] at h
      simp at h
    · by_cases h2 : pr q.toNat = true
      · rw [setPlanes, if_neg h1, if_pos h2] at h
        simp at h
      · rw [setPlanes, if_neg h1, if_neg h2] at h
        have h0 : 0 ≤ q := by
          push_neg at h1
          exact h1.1
        rw [ih np _ pr' h i, Function.update_apply]
        by_cases hi : i = q.toNat
        · subst hi
          simp only [if_pos rfl]
          constructor
          · intro _
            exact Or.inr ⟨q, List.mem_cons_self q t, h0, rfl⟩
          · intro _
            left
            simp
        · rw [if_neg hi]
          constructor
          · rintro (hp | ⟨x, hx, hx0, hxi⟩)
            · exact Or.inl hp
            · exact Or.inr ⟨x, List.mem_cons_of_mem q hx, hx0, hxi⟩
          · rintro (hp | ⟨x, hx, hx0, hxi⟩)
            · exact Or.inl hp
            · rcases List.mem_cons.mp hx with rfl | hx'
              · exact absurd hxi.symm hi
              · exact Or.inr ⟨x, hx', hx0, hxi⟩

/-- C10. Default plane selection: on a successful construction, a plane index
is selected exactly when the `planes` argument was omitted/empty (then every
plane is selected) or the index appears in the supplied list (then exactly
the listed planes are selected). -/
theorem c10_default_planes (planes : List ℤ) (np : ℕ) (pr : ℕ → Bool)
    (h : computeProcess planes np = .ok pr) (i : ℕ) :
    pr i = true ↔ (planes = [] ∨ (i : ℤ) ∈ planes) := by
  unfold computeProcess at h
  have hmem := setPlanes_ok_mem planes np _ pr h i
  by_cases hnil : planes = []
  · subst hnil
    simp only [setPlanes, Except.ok.injEq] at h
    subst h
    simp
  · have hlen : ¬ planes.length ≤ 0 := by
      cases planes with
      | nil => exact absurd rfl hnil
      | cons a t => simp
    rw [hmem]
    constructor
    · rintro (hf | ⟨x, hx, hx0, hxi⟩)
      · rw [decide_eq_true_eq] at hf
        exact absurd hf hlen
      · right
        have hxe : x = (i : ℤ) := by omega
        rwa [hxe] at hx
    · rintro (he | hmem')
      · exact absurd he hnil
      · exact Or.inr ⟨(i : ℤ), hmem', by omega, by omega⟩

theorem c10_default_planes_witness :
    ((Function.update (fun _ : ℕ => false) 1 true : ℕ → Bool) 1 = true ↔
      (([1] : List ℤ) = [] ∨ ((1 : ℕ) : ℤ) ∈ ([1] : List ℤ))) :=
  c10_default_planes [1] 3 (Function.update (fun _ : ℕ => false) 1 true) (by rfl) 1

theorem planesBad_iff (l : List ℤ) (np : ℕ) :
    ((∃ x ∈ l, x < 0 ∨ (np : ℤ) ≤ x) ∨ ¬l.Nodup) ↔
      ¬((∀ x ∈ l, 0 ≤ x ∧ x < (np : ℤ)) ∧ l.Nodup) := by
  constructor
  · rintro (⟨x, hx, hbad⟩ | hnd) ⟨hall, hnd'⟩
    · rcases hall x hx with ⟨ha, hb⟩
      rcases hbad with h | h <;> omega
    · exact hnd hnd'
  · intro h
    by_cases hnd : l.Nodup
    · left
      by_contra hex
      push_neg at hex
      exact h ⟨fun x hx => hex x hx, hnd⟩
    · right
      exact hnd

theorem setPlanes_exists_ok (l : List ℤ) : ∀ (np : ℕ) (pr : ℕ → Bool),
    (∃ pr', setPlanes l np pr = .ok pr') ↔
      ((∀ x ∈ l, 0 ≤ x ∧ x < (np : ℤ)) ∧ l.Nodup ∧ ∀ x ∈ l, pr x.toNat = false) := by
  induction l with
  | nil =>
    intro np pr
    simp [setPlanes]
  | cons q t ih =>
    intro np pr
    by_cases h1 : q < 0 ∨ (np : ℤ) ≤ q
    · constructor
      · rintro ⟨pr', hpr'⟩
        rw [setPlanes, if_pos h1] at hpr'
        simp at hpr'
      · rintro ⟨hall, -, -⟩
        exfalso
        rcases hall q (List.mem_cons_self q t) with ⟨ha, hb⟩
        rcases h1 with h | h <;> omega
    · push_neg at h1
      obtain ⟨hq0, hqnp⟩ := h1
      have h1' : ¬(q < 0 ∨ (np : ℤ) ≤ q) := by
        push_neg
        exact ⟨hq0, hqnp⟩
      by_cases h2 : pr q.toNat = true
      · constructor
        · rintro ⟨pr', hpr'⟩
          rw [setPlanes, if_neg h1', if_pos h2] at hpr'
          simp at hpr'
        · rintro ⟨-, -, hseen⟩
          exfalso
          have hf := hseen q (List.mem_cons_self q t)
          rw [hf] at h2
          exact Bool.false_ne_true h2
      · have hstep : setPlanes (q :: t) np pr
            = setPlanes t np (Function.update pr q.toNat true) := by
          rw [setPlanes, if_neg h1', if_neg h2]
        rw [hstep, ih np (Function.update pr q.toNat true)]
        have hq2 : pr q.toNat = false := by
          cases hb : pr q.toNat
          · rfl
          · exact absurd hb h2
        constructor
        · rintro ⟨hall, hnd, hseen⟩
          have hqt : q ∉ t := by
            intro hq
            have hft := hseen q hq
            rw [Function.update_same] at hft
            simp at hft
          refine ⟨?_, List.nodup_cons.mpr ⟨hqt, hnd⟩, ?_⟩
          · intro x hx
            rcases List.mem_cons.mp hx with rfl | hx'
            · exact ⟨hq0, hqnp⟩
            · exact hall x hx'
          · intro x hx
            rcases List.mem_cons.mp hx with rfl | hx'
            · exact hq2
            · have hft := hseen x hx'
              rw [Function.update_apply] at hft
              by_cases hxq : x.toNat = q.toNat
              · rw [if_pos hxq] at hft
                simp at hft
              · rwa [if_neg hxq] at hft
        · rintro ⟨hall, hnd, hseen⟩
          obtain ⟨hqt, hndt⟩ := List.nodup_cons.mp hnd
          refine ⟨fun x hx => hall x (List.mem_cons_of_mem q hx), hndt, ?_⟩
          intro x hx
          have hx0 : 0 ≤ x := (hall x (List.mem_cons_of_mem q hx)).1
          have hxq : x.toNat ≠ q.toNat := by
            intro hc
            apply hqt
            have hxe : x = q := by omega
            rwa [hxe] at hx
          rw [Function.update_apply, if_neg hxq]
          exact hseen x (List.mem_cons_of_mem q hx)

theorem computeProcess_exists_ok (l : List ℤ) (np : ℕ) :
    (∃ pr, computeProcess l np = .ok pr) ↔
      ((∀ x ∈ l, 0 ≤ x ∧ x < (np : ℤ)) ∧ l.Nodup) := by
  unfold computeProcess
  rw [setPlanes_exists_ok]
  constructor
  · rintro ⟨a, b, -⟩
    exact ⟨a, b⟩
  · rintro ⟨a, b⟩
    refine ⟨a, b, fun x hx => ?_⟩
    have hne : ¬ l.length ≤ 0 := by
      cases l with
      | nil => simp at hx
      | cons c t => simp
    simp [hne]

theorem computeProcess_error_iff (l : List ℤ) (np : ℕ) :
    (∃ e, computeProcess l np = .error e) ↔
      ¬((∀ x ∈ l, 0 ≤ x ∧ x < (np : ℤ)) ∧ l.Nodup) := by
  rw [← computeProcess_exists_ok]
  cases h : computeProcess l np with
  | ok pr => simp [h]
  | error e => simp [h]

/-- C2 (amended). Filter construction fails with an error, before any frame
is processed, exactly when, after the int64 `n` argument (default 8) is
narrowed to a 32-bit signed int by two's-complement wrap: the wrapped `n` is
negative or has more than one bit set (so wrapped `n = 0` and `n = 1` pass
the block-size check, and `n = 2^32 + 4` wraps to an accepted 4), the format
is not constant 8-16-bit integer or 32-bit float, a plane index is out of
range or duplicated, the `factors` length is neither `n` nor `n*n`, a factor
lies outside `[0,1]`, or `qps` is supplied with length neither `n` nor
`n*n`; `qps` values themselves are never range-checked. The hypothesis
excludes the corner where the wrapped `n` is 0 and a clip dimension is
nonzero, where the source's `width % (2*n)` divides by zero (undefined
behavior). -/
theorem c2_validation_amended (p : Params)
    (hub : wrap32 (p.nOpt.getD 8) = 0 → p.width = 0 ∧ p.height = 0) :
    (∃ e, dctfilterCreate p = .error e) ↔ actualFailCond p := by
  unfold dctfilterCreate actualFailCond
  by_cases h1 : wrap32 (p.nOpt.getD 8) < 0 ∨
      (wrap32 (p.nOpt.getD 8)).toNat &&& ((wrap32 (p.nOpt.getD 8)).toNat - 1) ≠ 0
  · simp only [if_pos h1]
    constructor
    · intro _
      exact Or.inl h1
    · intro _
      exact ⟨_, rfl⟩
  · rw [if_neg h1]
    by_cases h2 : ¬p.constantFormat ∨ (p.isInt ∧ 16 < p.bits) ∨ (¬p.isInt ∧ p.bits ≠ 32)
    · simp only [if_pos h2]
      constructor
      · intro _
        exact Or.inr (Or.inl h2)
      · intro _
        exact ⟨_, rfl⟩
    · rw [if_neg h2]
      cases hcp : computeProcess p.planes p.numPlanes with
      | error e =>
        dsimp only
        have hbad : (∃ x ∈ p.planes, x < 0 ∨ (p.numPlanes : ℤ) ≤ x) ∨ ¬p.planes.Nodup := by
          rw [planesBad_iff]
          exact (computeProcess_error_iff p.planes p.numPlanes).mp ⟨e, hcp⟩
        constructor
        · intro _
          exact Or.inr (Or.inr (Or.inl hbad))
        · intro _
          exact ⟨e, rfl⟩
      | ok pr =>
        dsimp only
        have hgood : ¬((∃ x ∈ p.planes, x < 0 ∨ (p.numPlanes : ℤ) ≤ x) ∨ ¬p.planes.Nodup) := by
          rw [planesBad_iff, not_not]
          exact (computeProcess_exists_ok p.planes p.numPlanes).mp ⟨pr, hcp⟩
        by_cases h4 : p.factors.length ≠ (wrap32 (p.nOpt.getD 8)).toNat ∧
            p.factors.length ≠ (wrap32 (p.nOpt.getD 8)).toNat * (wrap32 (p.nOpt.getD 8)).toNat
        · simp only [if_pos h4]
          constructor
          · intro _
            exact Or.inr (Or.inr (Or.inr (Or.inl h4)))
          · intro _
            exact ⟨_, rfl⟩
        · rw [if_neg h4]
          by_cases h5 : ∃ f ∈ p.factors, f < 0 ∨ 1 < f
          · simp only [if_pos h5]
            constructor
            · intro _
              exact Or.inr (Or.inr (Or.inr (Or.inr (Or.inl h5))))
            · intro _
              exact ⟨_, rfl⟩
          · rw [if_neg h5]
            by_cases h6 : p.qps.length ≠ 0 ∧ p.qps.length ≠ (wrap32 (p.nOpt.getD 8)).toNat ∧
                p.qps.length ≠ (wrap32 (p.nOpt.getD 8)).toNat * (wrap32 (p.nOpt.getD 8)).toNat
            · simp only [if_pos h6]
              constructor
              · intro _
                exact Or.inr (Or.inr (Or.inr (Or.inr (Or.inr h6))))
              · intro _
                exact ⟨_, rfl⟩
            · rw [if_neg h6]
              constructor
              · rintro ⟨e, he⟩
                simp at he
              · rintro (h | h | h | h | h | h)
                · exact absurd h h1
                · exact absurd h h2
                · exact absurd h hgood
                · exact absurd h h4
                · exact absurd h h5
                · exact absurd h h6

/-- C2 counterexample: the parameter set `pCex` (block size `n = 1`,
`factors = [1]`, valid 8-bit integer format) satisfies the claim's failure
condition — 1 is not a power of two of at least 2 — yet `dctfilterCreate`
succeeds, because the check `n < 0 || (n & (n-1)) != 0` accepts `n = 1`. -/
theorem c2_counterexample :
    specFailCond pCex ∧ ∃ c, dctfilterCreate pCex = .ok c := by
  constructor
  · unfold specFailCond pCex
    left
    rintro ⟨h, -⟩
    norm_num at h
  · exact ⟨_, rfl⟩

theorem c2_validation_amended_witness :
    (wrap32 (pCex.nOpt.getD 8) = 0 → pCex.width = 0 ∧ pCex.height = 0) ∧
    ((∃ e, dctfilterCreate pCex = .error e) ↔ actualFailCond pCex) := by
  have hub : wrap32 (pCex.nOpt.getD 8) = 0 → pCex.width = 0 ∧ pCex.height = 0 := by
    intro h
    simp only [pCex, wrap32, Option.getD_some] at h
    omega
  exact ⟨hub, c2_validation_amended pCex hub⟩
